import Mathlib

/-!
Verification of the citation-consistency checker
(`sbb-citation-match-checker.py`).

The Python program extracts parenthetical name-year citation candidates from
a document, normalizes author fragments into `surname|year` keys, parses the
reference list into keys, and reconciles the two key sets.

The shallow embedding below models Python's `re` backtracking semantics with
a small regex AST and a continuation-passing matcher (fuel-indexed; the fuel
is always large enough for the inputs considered, and every general theorem
is proved via a fuel-independent soundness lemma).  Strings are modelled as
`List Char`; Python's Unicode-aware `\s` / `str.strip()` / `str.split()`
whitespace set is modelled explicitly; `\d`, `[a-z]`, `[A-Z]` are the ASCII
classes (the documents' years and author initials are ASCII).
-/

namespace SBB

/-- Whitespace set used by Python's `str.strip()`, `str.split()` and `\s`
(Unicode whitespace code points). -/
def pyIsSpace (c : Char) : Bool :=
  decide ((9 ≤ c.toNat ∧ c.toNat ≤ 13) ∨ (28 ≤ c.toNat ∧ c.toNat ≤ 32) ∨
    c.toNat = 133 ∨ c.toNat = 160 ∨ c.toNat = 5760 ∨
    (8192 ≤ c.toNat ∧ c.toNat ≤ 8202) ∨ c.toNat = 8232 ∨ c.toNat = 8233 ∨
    c.toNat = 8239 ∨ c.toNat = 8287 ∨ c.toNat = 12288)

/-- Regex class `\d` (ASCII decimal digits `0`-`9`). -/
def pyIsDigit (c : Char) : Bool :=
  decide (48 ≤ c.toNat ∧ c.toNat ≤ 57)

/-- Regex class `[A-Z]`. -/
def pyIsUpper (c : Char) : Bool :=
  decide (65 ≤ c.toNat ∧ c.toNat ≤ 90)

/-- Regex class `[a-z]`. -/
def pyIsLower (c : Char) : Bool :=
  decide (97 ≤ c.toNat ∧ c.toNat ≤ 122)

/-- Remove the trailing run of characters satisfying `p` (the right half of
Python's `str.strip()`). -/
def dropTrail (p : Char → Bool) (l : List Char) : List Char :=
  match l with
  | [] => []
  | c :: t => if dropTrail p t = [] ∧ p c then [] else c :: dropTrail p t

/-- Python `str.strip()`: remove leading and trailing whitespace. -/
def pyStrip (l : List Char) : List Char :=
  dropTrail pyIsSpace (l.dropWhile pyIsSpace)

/-- One splitting step of Python `str.split()` (no separator argument):
the fuel only bounds the recursion and is always sufficient. -/
def pySplitWsAux (fuel : Nat) (l : List Char) : List (List Char) :=
  match fuel with
  | 0 => []
  | fuel + 1 =>
    let l' := l.dropWhile pyIsSpace
    match l' with
    | [] => []
    | _ :: _ =>
      l'.takeWhile (fun c => !pyIsSpace c) ::
        pySplitWsAux fuel (l'.dropWhile (fun c => !pyIsSpace c))

/-- Python `str.split()` with no arguments: split on whitespace runs,
discarding empty pieces. -/
def pySplitWs (l : List Char) : List (List Char) :=
  pySplitWsAux (l.length + 1) l

/-- Python `str.lower()` restricted to the characters this program feeds it
(ASCII letters, hyphen, apostrophe, whitespace — on those it is exactly
ASCII lowercasing). -/
def pyToLower (c : Char) : Char :=
  if 65 ≤ c.toNat ∧ c.toNat ≤ 90 then Char.ofNat (c.toNat + 32) else c

/-- Lowercase a whole list of characters (Python `str.lower()`). -/
def pyLowerList (l : List Char) : List Char :=
  l.map pyToLower

/-- Check that `needle` is a leading segment of `hay`. -/
def leadsWith : List Char → List Char → Bool
  | [], _ => true
  | _ :: _, [] => false
  | a :: as, b :: bs => a == b && leadsWith as bs

/-- Python substring containment `needle in hay`. -/
def strContains (hay needle : List Char) : Bool :=
  match hay with
  | [] => leadsWith needle []
  | _ :: t => leadsWith needle hay || strContains t needle

/-! ## The regex AST and the Python-style backtracking matcher -/

/-- Regex abstract syntax: exactly the constructs the Python patterns use.
`starG`/`starL` are the greedy / lazy (non-greedy) Kleene stars, `opt` is a
greedy `?`, `rep n` is `{n}`, `group i` a capturing group, `eol` is `$`. -/
inductive RE where
  | eps : RE
  | lit : Char → RE
  | cls : (Char → Bool) → RE
  | seq : RE → RE → RE
  | opt : RE → RE
  | rep : Nat → RE → RE
  | starG : RE → RE
  | starL : RE → RE
  | group : Nat → RE → RE
  | eol : RE

/-- Captured groups: group number paired with the captured characters. -/
abbrev Caps := List (Nat × List Char)

/-- Structural size of a regex; used only to pick a sufficient fuel. -/
def RE.size : RE → Nat
  | .eps => 1
  | .lit _ => 1
  | .cls _ => 1
  | .seq a b => a.size + b.size + 1
  | .opt a => a.size + 1
  | .rep n a => n * (a.size + 1) + 1
  | .starG a => a.size + 1
  | .starL a => a.size + 1
  | .group _ a => a.size + 1
  | .eol => 1

/-- Backtracking matcher in continuation-passing style, mirroring Python's
`re` semantics: greedy operators try to consume first, lazy ones try the
continuation first, and alternatives are explored by backtracking through
the continuation.  A star iteration must consume input (all starred bodies
in the modelled patterns consume at least one character, as in Python).
`none` from exhausted fuel can only lose matches, never invent them; the
fuel used by the wrappers below is always sufficient. -/
def matchRE (fuel : Nat) (r : RE) (s : List Char) (caps : Caps)
    (k : List Char → Caps → Option (List Char × Caps)) :
    Option (List Char × Caps) :=
  match fuel with
  | 0 => none
  | fuel + 1 =>
    match r with
    | .eps => k s caps
    | .lit c =>
      match s with
      | [] => none
      | x :: rest => if x = c then k rest caps else none
    | .cls p =>
      match s with
      | [] => none
      | x :: rest => if p x then k rest caps else none
    | .seq a b =>
      matchRE fuel a s caps (fun s' caps' => matchRE fuel b s' caps' k)
    | .opt a =>
      match matchRE fuel a s caps k with
      | some res => some res
      | none => k s caps
    | .rep 0 _ => k s caps
    | .rep (n + 1) a =>
      matchRE fuel a s caps (fun s' caps' => matchRE fuel (.rep n a) s' caps' k)
    | .starG a =>
      match matchRE fuel a s caps (fun s' caps' =>
          if s'.length < s.length then matchRE fuel (.starG a) s' caps' k
          else none) with
      | some res => some res
      | none => k s caps
    | .starL a =>
      match k s caps with
      | some res => some res
      | none =>
        matchRE fuel a s caps (fun s' caps' =>
          if s'.length < s.length then matchRE fuel (.starL a) s' caps' k
          else none)
    | .group i a =>
      matchRE fuel a s caps
        (fun s' caps' => k s' ((i, s.take (s.length - s'.length)) :: caps'))
    | .eol => if s = [] ∨ s = [Char.ofNat 10] then k s caps else none

/-- Fuel that is always sufficient for `matchRE` on input `s`. -/
def engineFuel (r : RE) (s : List Char) : Nat :=
  r.size + s.length + 2

/-- Attempt an anchored match of `r` at the start of `s` (Python's internal
`match-at-position` primitive): returns the length of the consumed span and
the captures on success. -/
def matchTotal (r : RE) (s : List Char) : Option (Nat × Caps) :=
  match matchRE (engineFuel r s) r s [] (fun s' caps => some (s', caps)) with
  | some (s', caps) => some (s.length - s'.length, caps)
  | none => none

/-- Worker for `finditer`; the fuel is always sufficient. -/
def finditerAux (r : RE) (fuel : Nat) (s : List Char) :
    List (List Char × Caps) :=
  match fuel with
  | 0 => []
  | fuel + 1 =>
    match s with
    | [] =>
      match matchTotal r [] with
      | some (_, caps) => [([], caps)]
      | none => []
    | c :: rest =>
      match matchTotal r (c :: rest) with
      | some (n, caps) =>
        if n = 0 then ([], caps) :: finditerAux r fuel rest
        else ((c :: rest).take n, caps) :: finditerAux r fuel ((c :: rest).drop n)
      | none => finditerAux r fuel rest

/-- Python `re.finditer`: scan left to right, emit non-overlapping matches
(matched span together with its captures). -/
def finditer (r : RE) (s : List Char) : List (List Char × Caps) :=
  finditerAux r (s.length + 1) s

/-- Python `re.search`: captures of the leftmost match, if any. -/
def reSearch (r : RE) : List Char → Option Caps
  | [] =>
    match matchTotal r [] with
    | some (_, caps) => some caps
    | none => none
  | c :: t =>
    match matchTotal r (c :: t) with
    | some (_, caps) => some caps
    | none => reSearch r t

/-- Worker for `reSub`; the fuel is always sufficient. -/
def reSubAux (r : RE) (fuel : Nat) (s : List Char) : List Char :=
  match fuel with
  | 0 => s
  | fuel + 1 =>
    match s with
    | [] => []
    | c :: rest =>
      match matchTotal r s with
      | some (n, _) =>
        if n = 0 then c :: reSubAux r fuel rest
        else reSubAux r fuel (s.drop n)
      | none => c :: reSubAux r fuel rest

/-- Python `re.sub(pattern, "", s)`: delete every non-overlapping match,
scanning left to right. -/
def reSub (r : RE) (s : List Char) : List Char :=
  reSubAux r (s.length + 1) s

/-- Retrieve a captured group by number (most recent capture first). -/
def getCap (caps : Caps) (i : Nat) : List Char :=
  match caps with
  | [] => []
  | (j, w) :: rest => if j = i then w else getCap rest i

/-! ## The concrete patterns of the program -/

/-- Apostrophe character (code point 39). -/
def apos : Char := Char.ofNat 39

/-- Year token `\d{4}[a-z]?`: four ASCII digits and an optional lowercase
disambiguator letter. -/
def yearRE : RE :=
  .seq (.rep 4 (.cls pyIsDigit)) (.opt (.cls pyIsLower))

/-- Character class `[^()]`. -/
def notParen (c : Char) : Bool :=
  c != '(' && c != ')'

/-- Interior of the citation pattern, between the two parentheses:
`[^()]*?\d{4}[a-z]?[^()]*?(?:[;,][^()]*\d{4}[a-z]?[^()]*)*`. -/
def citationInnerRE : RE :=
  .seq (.starL (.cls notParen))
    (.seq yearRE
      (.seq (.starL (.cls notParen))
        (.starG
          (.seq (.cls fun c => c == ';' || c == ',')
            (.seq (.starG (.cls notParen))
              (.seq yearRE (.starG (.cls notParen))))))))

/-- Pattern of `extract_citations`:
`\([^()]*?\d{4}[a-z]?[^()]*?(?:[;,][^()]*\d{4}[a-z]?[^()]*)*\)`. -/
def citationRE : RE :=
  .seq (.lit '(') (.seq citationInnerRE (.lit ')'))

/-- Source `extract_citations(text)`: every parenthetical group matching
`citationRE`, with the parentheses sliced off (`c[1:-1]`) and surrounding
whitespace stripped. -/
def extract_citations (text : String) : List String :=
  let citations_raw := (finditer citationRE text.data).map (fun m => m.1)
  citations_raw.map (fun c => String.mk (pyStrip (c.drop 1).dropLast))

/-- Literal-sequence regex: `litSeq cs` matches exactly the string `cs`. -/
def litSeq : List Char → RE
  | [] => .eps
  | c :: cs => .seq (.lit c) (litSeq cs)

/-- Token removed by `normalize_author`: the literal `et al.` (the pattern
`et al\.`, whose `\.` is a literal period). -/
def etAlToken : List Char := "et al.".data

/-- Pattern `et al\.` of `normalize_author`. -/
def etAlRE : RE := litSeq etAlToken

/-- Pattern `^[A-Z]\.?$` of `normalize_author` (`re.match` anchors at the
start; `$` accepts the end of the string or a final newline). -/
def initialRE : RE :=
  .seq (.cls pyIsUpper) (.seq (.opt (.lit '.')) .eol)

/-- Character class kept by `re.sub(r"[^A-Za-z\-'\s]", "", surname)`:
ASCII letters, hyphen, apostrophe and whitespace survive. -/
def keepSurnameChar (c : Char) : Bool :=
  pyIsUpper c || pyIsLower c || c == '-' || c == apos || pyIsSpace c

/-- Intermediate state of `normalize_author`, after stripping, `et al.`
removal and truncation at the first comma. -/
def authorBeforeTokens (author : String) : List Char :=
  let a := pyStrip author.data
  let a := pyStrip (reSub etAlRE a)
  if a.contains ',' then pyStrip (a.takeWhile (fun c => c != ',')) else a

/-- Whitespace tokens of the intermediate author text (`author.split()`). -/
def authorTokens (author : String) : List (List Char) :=
  pySplitWs (authorBeforeTokens author)

/-- Test `re.match(r"^[A-Z]\.?$", token)`: the token is a single initial. -/
def isInitialTok (t : List Char) : Bool :=
  (matchTotal initialRE t).isSome

/-- Final cleaning of the chosen surname: keep letters, hyphen, apostrophe
and whitespace, then lowercase. -/
def surnameClean (t : List Char) : String :=
  String.mk (pyLowerList (t.filter keepSurnameChar))

/-- Source `normalize_author(author)`: strip, remove `et al.`, truncate at
the first comma, tokenize; an empty token list gives `""`; a leading
initial with at least two tokens selects the last token, otherwise the
first token; finally clean and lowercase. -/
def normalize_author (author : String) : String :=
  match authorTokens author with
  | [] => ""
  | t0 :: rest =>
    if 2 ≤ (t0 :: rest).length ∧ isInitialTok t0 = true then
      surnameClean ((t0 :: rest).getLastD [])
    else
      surnameClean t0

/-- Serialized citation key `f"{author_norm}|{year}"`. -/
def mkCitationKey (author_norm year : String) : String :=
  author_norm ++ "|" ++ year

/-- Pattern of `build_citation_keys`: `([A-Z][^,]*?),\s*(\d{4}[a-z]?)`. -/
def citeKeyRE : RE :=
  .seq (.group 1 (.seq (.cls pyIsUpper) (.starL (.cls fun c => c != ','))))
    (.seq (.lit ',') (.seq (.starG (.cls pyIsSpace)) (.group 2 yearRE)))

/-- Insert one example under a key, with Python `dict.setdefault` plus
`set.add` semantics (insertion order kept, duplicates collapsed). -/
def addExample (acc : List (String × List String)) (key cit : String) :
    List (String × List String) :=
  match acc with
  | [] => [(key, [cit])]
  | (k, exs) :: rest =>
    if k = key then (k, if cit ∈ exs then exs else exs ++ [cit]) :: rest
    else (k, exs) :: addExample rest key cit

/-- Source `build_citation_keys(citation_strings)`: for every match of
`citeKeyRE` in every candidate, normalize the stripped group 1; discard the
match when normalization is empty, otherwise record the candidate under the
key `author_norm|year`. -/
def build_citation_keys (citation_strings : List String) :
    List (String × List String) :=
  citation_strings.foldl (fun acc cit =>
    (finditer citeKeyRE cit.data).foldl (fun acc m =>
      let raw_author_part := String.mk (pyStrip (getCap m.2 1))
      let year := String.mk (getCap m.2 2)
      let author_norm := normalize_author raw_author_part
      if author_norm = "" then acc
      else addExample acc (mkCitationKey author_norm year) cit) acc) []

/-- Heading keywords of `extract_reference_paragraphs`. -/
def heading_keywords : List String :=
  ["references", "reference", "bibliography", "literature cited",
   "works cited", "参考文献", "參考文獻", "文献", "文獻"]

/-- Test used on each paragraph while scanning for the reference heading:
some keyword occurs in the lowercased, stripped paragraph text. -/
def paraIsHeading (p : String) : Bool :=
  heading_keywords.any (fun kw =>
    strContains (pyLowerList (pyStrip p.data)) kw.data)

/-- Worker for `extract_reference_paragraphs`: the boolean is the source's
`refs_started` flag. -/
def extractRefsAux : Bool → List String → List String
  | _, [] => []
  | false, p :: rest =>
    if paraIsHeading p then extractRefsAux true rest
    else extractRefsAux false rest
  | true, p :: rest =>
    let text := String.mk (pyStrip p.data)
    if text = "" then extractRefsAux true rest
    else text :: extractRefsAux true rest

/-- Source `extract_reference_paragraphs(doc)`, over the ordered paragraph
texts: everything after the first heading paragraph, stripped, with empty
paragraphs skipped. -/
def extract_reference_paragraphs (paragraphs : List String) : List String :=
  extractRefsAux false paragraphs

/-- Parsed reference entry, as built by `parse_reference_entries`. -/
structure ReferenceEntry where
  index : Nat
  raw : String
  author_norm : String
  year : String
  key : String
deriving DecidableEq, Repr

/-- Search pattern `(\d{4}[a-z]?)` of `parse_reference_entries`. -/
def yearSearchRE : RE := .group 1 yearRE

/-- Parse one reference line at its enumerated index: find the first year
token anywhere in the line (drop the line if none), take the text before
the first comma as the author fragment, normalize it (drop the line if the
result is empty), and emit the entry. -/
def parseRefLine (i : Nat) (text : String) : Option ReferenceEntry :=
  match reSearch yearSearchRE text.data with
  | none => none
  | some caps =>
    let year := String.mk (getCap caps 1)
    let first_author_part := String.mk (pyStrip (text.data.takeWhile (fun c => c != ',')))
    let author_norm := normalize_author first_author_part
    if author_norm = "" then none
    else some ⟨i, text, author_norm, year, mkCitationKey author_norm year⟩

/-- Worker for `parse_reference_entries`: `i` is the `enumerate` counter,
which advances on every input line, parsed or dropped. -/
def parseRefAux (i : Nat) (lines : List String) : List ReferenceEntry :=
  match lines with
  | [] => []
  | text :: rest =>
    match parseRefLine i text with
    | some e => e :: parseRefAux (i + 1) rest
    | none => parseRefAux (i + 1) rest

/-- Source `parse_reference_entries(ref_lines)`: iterate with `enumerate`,
keeping only the lines that yield a key. -/
def parse_reference_entries (ref_lines : List String) : List ReferenceEntry :=
  parseRefAux 0 ref_lines

/-- Distinct citation keys of the in-text side:
`set(cit_key_examples.keys())` in `main`. -/
def citationKeySet (citation_strings : List String) : Finset String :=
  ((build_citation_keys citation_strings).map (fun kv => kv.1)).toFinset

/-- Reference keys: the set comprehension over parsed entries in `main`. -/
def refKeySet (entries : List ReferenceEntry) : Finset String :=
  (entries.map (fun e => e.key)).toFinset

/-- Reconciliation `missing_keys = citation_keys - ref_keys` in `main`. -/
def missingKeys (citation_keys ref_keys : Finset String) : Finset String :=
  citation_keys \ ref_keys

/-- Reconciliation `unused_keys = ref_keys - citation_keys` in `main`. -/
def unusedKeys (citation_keys ref_keys : Finset String) : Finset String :=
  ref_keys \ citation_keys

/-- Overall verdict line written at the end of `main`'s report. -/
inductive Verdict where
  | undetermined
  | errors
  | good
deriving DecidableEq, Repr

/-- Source `main`, step 4: no reference lines gives the "could not assess"
verdict; otherwise a non-empty `missing_keys` gives the ERRORS verdict and
an empty one the GOOD verdict (`unused_keys` is never consulted). -/
def overallVerdict (ref_lines : List String)
    (missing_keys unused_keys : Finset String) : Verdict :=
  if ref_lines = [] then .undetermined
  else if missing_keys ≠ ∅ then .errors
  else .good

/-! ## Language semantics of the regex AST and soundness of the matcher -/

/-- Declarative language semantics of `RE` (greediness forgotten): the
word-level meaning of every construct. -/
inductive Accepts : RE → List Char → Prop where
  | eps : Accepts .eps []
  | lit (c : Char) : Accepts (.lit c) [c]
  | cls {p : Char → Bool} {c : Char} : p c = true → Accepts (.cls p) [c]
  | seq {a b : RE} {s t : List Char} :
      Accepts a s → Accepts b t → Accepts (.seq a b) (s ++ t)
  | optNone (a : RE) : Accepts (.opt a) []
  | optSome {a : RE} {s : List Char} : Accepts a s → Accepts (.opt a) s
  | repZero (a : RE) : Accepts (.rep 0 a) []
  | repSucc {n : Nat} {a : RE} {s t : List Char} :
      Accepts a s → Accepts (.rep n a) t → Accepts (.rep (n + 1) a) (s ++ t)
  | starGNil (a : RE) : Accepts (.starG a) []
  | starGCons {a : RE} {s t : List Char} :
      Accepts a s → Accepts (.starG a) t → Accepts (.starG a) (s ++ t)
  | starLNil (a : RE) : Accepts (.starL a) []
  | starLCons {a : RE} {s t : List Char} :
      Accepts a s → Accepts (.starL a) t → Accepts (.starL a) (s ++ t)
  | group {i : Nat} {a : RE} {s : List Char} :
      Accepts a s → Accepts (.group i a) s
  | eolNil : Accepts .eol []

/-- Predicate `ClsOnly Q r`: every character any word of `r` could contain
satisfies `Q`. -/
def ClsOnly (Q : Char → Prop) : RE → Prop
  | .eps => True
  | .lit c => Q c
  | .cls p => ∀ c, p c = true → Q c
  | .seq a b => ClsOnly Q a ∧ ClsOnly Q b
  | .opt a => ClsOnly Q a
  | .rep _ a => ClsOnly Q a
  | .starG a => ClsOnly Q a
  | .starL a => ClsOnly Q a
  | .group _ a => ClsOnly Q a
  | .eol => True

/-- Test for four consecutive ASCII digits at the head of the list. -/
def fourDigitsAt (l : List Char) : Bool :=
  match l with
  | d1 :: d2 :: d3 :: d4 :: _ =>
    pyIsDigit d1 && pyIsDigit d2 && pyIsDigit d3 && pyIsDigit d4
  | _ => false

/-- Test for a year token: four consecutive ASCII digits anywhere in the
list (the optional lowercase disambiguator adds nothing to existence). -/
def hasFourDigitRun (l : List Char) : Bool :=
  match l with
  | [] => false
  | _ :: t => fourDigitsAt l || hasFourDigitRun t

/-- Test that a list neither starts nor ends with Python whitespace. -/
def noEdgeSpace (l : List Char) : Bool :=
  (match l.head? with
   | none => true
   | some c => !pyIsSpace c) &&
  (match l.getLast? with
   | none => true
   | some c => !pyIsSpace c)

/-! ## Further definitions used by the claims -/

/-- Specification-side reference-list locator, following the spec's words
for comparison with the source's `extract_reference_paragraphs`: the
sub-sequence of non-empty (after trimming) paragraphs that follow the first
paragraph containing a heading keyword, the heading excluded; the empty
sequence when no heading is found. -/
def refListSpec : List String → List String
  | [] => []
  | p :: rest =>
    if paraIsHeading p then
      (rest.map (fun q => String.mk (pyStrip q.data))).filter (fun t => t ≠ "")
    else refListSpec rest

/-- Specification-side literal replacement: delete every leftmost,
non-overlapping occurrence of `pat` (used to characterize what
`re.sub(r"et al\.", "", _)` does). -/
def removeAll (pat : List Char) (s : List Char) : List Char :=
  match s with
  | [] => []
  | c :: rest =>
    if h : pat ≠ [] ∧ leadsWith pat (c :: rest) = true then
      removeAll pat ((c :: rest).drop pat.length)
    else c :: removeAll pat rest
termination_by s.length
decreasing_by
  · have hp : 0 < pat.length := List.length_pos.mpr h.1
    simp only [List.length_drop, List.length_cons]
    omega
  · simp

/-- Soundness of the backtracking matcher: a successful run consumes a
leading span of the input that the regex accepts, and hands the rest to the
continuation. -/
theorem matchRE_sound :
    ∀ (fuel : Nat) (r : RE) (s : List Char) (caps : Caps)
      (k : List Char → Caps → Option (List Char × Caps))
      (res : List Char × Caps),
      matchRE fuel r s caps k = some res →
      ∃ n caps', n ≤ s.length ∧ Accepts r (s.take n) ∧
        k (s.drop n) caps' = some res := by
  intro fuel
  induction fuel with
  | zero => intro r s caps k res h; simp [matchRE] at h
  | succ fuel ih =>
    intro r s caps k res h
    cases r with
    | eps =>
      exact ⟨0, caps, Nat.zero_le _, by simpa using Accepts.eps, by simpa [matchRE] using h⟩
    | lit c =>
      simp only [matchRE] at h
      cases s with
      | nil => exact absurd h (by simp)
      | cons x rest =>
        by_cases hx : x = c
        · subst hx
          simp only [if_pos rfl] at h
          exact ⟨1, caps, by simp, by simpa using Accepts.lit x, by simpa using h⟩
        · simp [hx] at h
    | cls p =>
      simp only [matchRE] at h
      cases s with
      | nil => exact absurd h (by simp)
      | cons x rest =>
        by_cases hx : p x = true
        · simp only [if_pos hx] at h
          exact ⟨1, caps, by simp, by simpa using Accepts.cls hx, by simpa using h⟩
        · simp [hx] at h
    | seq a b =>
      simp only [matchRE] at h
      obtain ⟨n1, c1, hn1, ha1, hk1⟩ := ih a s caps _ res h
      obtain ⟨n2, c2, hn2, ha2, hk2⟩ := ih b (s.drop n1) c1 _ res hk1
      refine ⟨n1 + n2, c2, ?_, ?_, ?_⟩
      · have := s.length_drop n1; omega
      · rw [List.take_add]
        exact Accepts.seq ha1 ha2
      · rwa [← List.drop_drop]
    | opt a =>
      simp only [matchRE] at h
      cases heq : matchRE fuel a s caps k with
      | some v =>
        rw [heq] at h
        obtain ⟨n, c1, hn, ha, hk⟩ := ih a s caps k res (heq.trans h)
        exact ⟨n, c1, hn, Accepts.optSome ha, hk⟩
      | none =>
        rw [heq] at h
        exact ⟨0, caps, Nat.zero_le _, by simpa using Accepts.optNone a, by simpa using h⟩
    | rep n a =>
      cases n with
      | zero =>
        exact ⟨0, caps, Nat.zero_le _, by simpa using Accepts.repZero a, by simpa [matchRE] using h⟩
      | succ m =>
        simp only [matchRE] at h
        obtain ⟨n1, c1, hn1, ha1, hk1⟩ := ih a s caps _ res h
        obtain ⟨n2, c2, hn2, ha2, hk2⟩ := ih (.rep m a) (s.drop n1) c1 _ res hk1
        refine ⟨n1 + n2, c2, ?_, ?_, ?_⟩
        · have := s.length_drop n1; omega
        · rw [List.take_add]
          exact Accepts.repSucc ha1 ha2
        · rwa [← List.drop_drop]
    | starG a =>
      simp only [matchRE] at h
      cases heq : matchRE fuel a s caps (fun s' caps' =>
          if s'.length < s.length then matchRE fuel (.starG a) s' caps' k
          else none) with
      | some v =>
        rw [heq] at h
        obtain ⟨n1, c1, hn1, ha1, hk1⟩ := ih a s caps _ res (heq.trans h)
        by_cases hlt : (s.drop n1).length < s.length
        · rw [if_pos hlt] at hk1
          obtain ⟨n2, c2, hn2, ha2, hk2⟩ := ih (.starG a) (s.drop n1) c1 k res hk1
          refine ⟨n1 + n2, c2, ?_, ?_, ?_⟩
          · have := s.length_drop n1; omega
          · rw [List.take_add]
            exact Accepts.starGCons ha1 ha2
          · rwa [← List.drop_drop]
        · rw [if_neg hlt] at hk1
          exact absurd hk1 (by simp)
      | none =>
        rw [heq] at h
        exact ⟨0, caps, Nat.zero_le _, by simpa using Accepts.starGNil a, by simpa using h⟩
    | starL a =>
      simp only [matchRE] at h
      cases heq : k s caps with
      | some v =>
        rw [heq] at h
        exact ⟨0, caps, Nat.zero_le _, by simpa using Accepts.starLNil a,
          by simpa using heq.trans h⟩
      | none =>
        rw [heq] at h
        obtain ⟨n1, c1, hn1, ha1, hk1⟩ := ih a s caps _ res h
        by_cases hlt : (s.drop n1).length < s.length
        · rw [if_pos hlt] at hk1
          obtain ⟨n2, c2, hn2, ha2, hk2⟩ := ih (.starL a) (s.drop n1) c1 k res hk1
          refine ⟨n1 + n2, c2, ?_, ?_, ?_⟩
          · have := s.length_drop n1; omega
          · rw [List.take_add]
            exact Accepts.starLCons ha1 ha2
          · rwa [← List.drop_drop]
        · rw [if_neg hlt] at hk1
          exact absurd hk1 (by simp)
    | group i a =>
      simp only [matchRE] at h
      obtain ⟨n, c1, hn, ha, hk⟩ := ih a s caps _ res h
      exact ⟨n, (i, s.take (s.length - (s.drop n).length)) :: c1, hn, Accepts.group ha, hk⟩
    | eol =>
      simp only [matchRE] at h
      by_cases hs : s = [] ∨ s = [Char.ofNat 10]
      · rw [if_pos hs] at h
        exact ⟨0, caps, Nat.zero_le _, by simpa using Accepts.eolNil, by simpa using h⟩
      · rw [if_neg hs] at h
        exact absurd h (by simp)

/-- Soundness of `matchTotal`: the reported length is a leading span of the
input accepted by the regex. -/
theorem matchTotal_sound {r : RE} {s : List Char} {n : Nat} {caps : Caps}
    (h : matchTotal r s = some (n, caps)) :
    n ≤ s.length ∧ Accepts r (s.take n) := by
  unfold matchTotal at h
  cases heq : matchRE (engineFuel r s) r s [] (fun s' caps => some (s', caps)) with
  | none => rw [heq] at h; exact absurd h (by simp)
  | some v =>
    rw [heq] at h
    obtain ⟨m, caps', hm, ha, hk⟩ := matchRE_sound _ r s [] _ v heq
    obtain ⟨v1, v2⟩ := v
    simp only [Option.some.injEq, Prod.mk.injEq] at hk h
    obtain ⟨hk1, -⟩ := hk
    obtain ⟨hn, -⟩ := h
    have hm' : n = m := by
      rw [← hn, ← hk1, s.length_drop m]
      omega
    subst hm'
    exact ⟨hm, ha⟩

/-- Soundness of `finditer`: every emitted span is accepted by the regex. -/
theorem finditer_sound {r : RE} {s : List Char} {w : List Char} {caps : Caps}
    (h : (w, caps) ∈ finditer r s) : Accepts r w := by
  unfold finditer at h
  generalize hf : s.length + 1 = fuel at h
  clear hf
  induction fuel generalizing s with
  | zero => simp [finditerAux] at h
  | succ fuel ih =>
    unfold finditerAux at h
    cases s with
    | nil =>
      dsimp only at h
      cases heq : matchTotal r [] with
      | some v =>
        obtain ⟨n, caps'⟩ := v
        rw [heq] at h
        dsimp only at h
        simp at h
        obtain ⟨hw, -⟩ := h
        subst hw
        simpa using (matchTotal_sound heq).2
      | none => rw [heq] at h; dsimp only at h; simp at h
    | cons c rest =>
      dsimp only at h
      cases heq : matchTotal r (c :: rest) with
      | some v =>
        obtain ⟨n, caps'⟩ := v
        rw [heq] at h
        dsimp only at h
        by_cases hn : n = 0
        · rw [if_pos hn] at h
          simp at h
          rcases h with ⟨hw, -⟩ | h
          · subst hw
            subst hn
            simpa using (matchTotal_sound heq).2
          · exact ih h
        · rw [if_neg hn] at h
          simp at h
          rcases h with ⟨hw, -⟩ | h
          · subst hw
            exact (matchTotal_sound heq).2
          · exact ih h
      | none => rw [heq] at h; dsimp only at h; exact ih h

/-! ## Character-level invariants of accepted words -/

/-- Every character of a word accepted by a `ClsOnly Q` regex satisfies
`Q`. -/
theorem accepts_clsOnly {Q : Char → Prop} {r : RE} {w : List Char}
    (hr : ClsOnly Q r) (hw : Accepts r w) : ∀ c ∈ w, Q c := by
  induction hw with
  | eps => simp
  | lit c => simpa [ClsOnly] using hr
  | cls hp => intro c hc; simp at hc; subst hc; exact hr _ hp
  | seq ha hb iha ihb =>
    intro c hc
    rw [List.mem_append] at hc
    rcases hc with hc | hc
    · exact iha hr.1 c hc
    · exact ihb hr.2 c hc
  | optNone => simp
  | optSome ha ihb => exact ihb hr
  | repZero => simp
  | repSucc ha hb iha ihb =>
    intro c hc
    rw [List.mem_append] at hc
    rcases hc with hc | hc
    · exact iha hr c hc
    · exact ihb hr c hc
  | starGNil => simp
  | starGCons ha hb iha ihb =>
    intro c hc
    rw [List.mem_append] at hc
    rcases hc with hc | hc
    · exact iha hr c hc
    · exact ihb hr c hc
  | starLNil => simp
  | starLCons ha hb iha ihb =>
    intro c hc
    rw [List.mem_append] at hc
    rcases hc with hc | hc
    · exact iha hr c hc
    · exact ihb hr c hc
  | group ha iha => exact iha hr
  | eolNil => simp

/-- Words of `rep n (cls p)` have length `n` and consist of `p`-characters. -/
theorem accepts_rep_cls {n : Nat} {p : Char → Bool} {w : List Char}
    (h : Accepts (.rep n (.cls p)) w) :
    w.length = n ∧ ∀ c ∈ w, p c = true := by
  induction n generalizing w with
  | zero =>
    cases h
    exact ⟨rfl, by simp⟩
  | succ m ih =>
    cases h with
    | repSucc ha hb =>
      cases ha with
      | cls hp =>
        obtain ⟨hlen, hall⟩ := ih hb
        refine ⟨by simp [hlen], ?_⟩
        intro c hc
        simp at hc
        rcases hc with hc | hc
        · subst hc; assumption
        · exact hall c hc

/-- Whitespace characters are not digits. -/
theorem pyIsSpace_not_digit {c : Char} (h : pyIsSpace c = true) :
    pyIsDigit c = false := by
  simp only [pyIsSpace, decide_eq_true_eq] at h
  simp only [pyIsDigit, decide_eq_false_iff_not]
  omega

/-- A word accepted by the year pattern starts with four digits. -/
theorem accepts_year_fourDigitsAt {w : List Char} (h : Accepts yearRE w) :
    fourDigitsAt w = true := by
  cases h with
  | seq ha hb =>
    rename_i s t
    obtain ⟨hlen, hall⟩ := accepts_rep_cls ha
    match s, hlen with
    | [a, b, c, d], _ =>
      simp only [fourDigitsAt, List.cons_append]
      have := hall
      simp at this
      simp [this]

/-- Extending to the right preserves `fourDigitsAt`. -/
theorem fourDigitsAt_append {l r : List Char} (h : fourDigitsAt l = true) :
    fourDigitsAt (l ++ r) = true := by
  match l with
  | d1 :: d2 :: d3 :: d4 :: t => simpa [fourDigitsAt] using h
  | [] => simp [fourDigitsAt] at h
  | [d1] => simp [fourDigitsAt] at h
  | [d1, d2] => simp [fourDigitsAt] at h
  | [d1, d2, d3] => simp [fourDigitsAt] at h

/-- Extending to the right preserves `hasFourDigitRun`. -/
theorem hasFourDigitRun_append_right {l r : List Char}
    (h : hasFourDigitRun l = true) : hasFourDigitRun (l ++ r) = true := by
  induction l with
  | nil => simp [hasFourDigitRun] at h
  | cons c t ih =>
    simp only [hasFourDigitRun, Bool.or_eq_true] at h
    rcases h with h | h
    · simp only [List.cons_append, hasFourDigitRun, Bool.or_eq_true]
      exact Or.inl (by simpa using fourDigitsAt_append (r := r) h)
    · simp only [List.cons_append, hasFourDigitRun, Bool.or_eq_true]
      exact Or.inr (ih h)

/-- Extending to the left preserves `hasFourDigitRun`. -/
theorem hasFourDigitRun_append_left {l r : List Char}
    (h : hasFourDigitRun r = true) : hasFourDigitRun (l ++ r) = true := by
  induction l with
  | nil => simpa using h
  | cons c t ih =>
    simp only [List.cons_append, hasFourDigitRun, Bool.or_eq_true]
    exact Or.inr ih

/-- An all-whitespace list has no digit run. -/
theorem hasFourDigitRun_all_space {l : List Char}
    (h : ∀ c ∈ l, pyIsSpace c = true) : hasFourDigitRun l = false := by
  induction l with
  | nil => rfl
  | cons c t ih =>
    have hc : pyIsSpace c = true := h c (by simp)
    simp only [hasFourDigitRun, Bool.or_eq_false_iff]
    constructor
    · match t with
      | [] => rfl
      | [d2] => rfl
      | [d2, d3] => rfl
      | d2 :: d3 :: d4 :: t' =>
        simp only [fourDigitsAt]
        simp [pyIsSpace_not_digit hc]
    · exact ih (fun c hc => h c (by simp [hc]))

/-- Stripping an all-whitespace suffix keeps `fourDigitsAt`. -/
theorem fourDigitsAt_of_append_space {l r : List Char}
    (h : fourDigitsAt (l ++ r) = true) (hr : ∀ c ∈ r, pyIsSpace c = true) :
    fourDigitsAt l = true := by
  match l with
  | d1 :: d2 :: d3 :: d4 :: t => simpa [fourDigitsAt] using h
  | [] =>
    rw [List.nil_append] at h
    match r, hr with
    | d1 :: d2 :: d3 :: d4 :: t, hr =>
      simp only [fourDigitsAt, Bool.and_eq_true] at h
      have := pyIsSpace_not_digit (hr d1 (by simp))
      simp [this] at h
  | [a] =>
    match r, hr with
    | d2 :: d3 :: d4 :: t, hr =>
      simp only [List.cons_append, List.nil_append, fourDigitsAt,
        Bool.and_eq_true] at h
      have := pyIsSpace_not_digit (hr d2 (by simp))
      simp [this] at h
  | [a, b] =>
    match r, hr with
    | d3 :: d4 :: t, hr =>
      simp only [List.cons_append, List.nil_append, fourDigitsAt,
        Bool.and_eq_true] at h
      have := pyIsSpace_not_digit (hr d3 (by simp))
      simp [this] at h
  | [a, b, c] =>
    match r, hr with
    | d4 :: t, hr =>
      simp only [List.cons_append, List.nil_append, fourDigitsAt,
        Bool.and_eq_true] at h
      have := pyIsSpace_not_digit (hr d4 (by simp))
      simp [this] at h

/-- Stripping an all-whitespace suffix keeps `hasFourDigitRun`. -/
theorem hasFourDigitRun_of_append_space {l r : List Char}
    (h : hasFourDigitRun (l ++ r) = true)
    (hr : ∀ c ∈ r, pyIsSpace c = true) : hasFourDigitRun l = true := by
  induction l with
  | nil =>
    rw [List.nil_append] at h
    rw [hasFourDigitRun_all_space hr] at h
    exact absurd h (by simp)
  | cons c t ih =>
    simp only [List.cons_append, hasFourDigitRun, Bool.or_eq_true] at h
    rcases h with h | h
    · have : fourDigitsAt (c :: t) = true :=
        fourDigitsAt_of_append_space (l := c :: t) (by simpa using h) hr
      simp [hasFourDigitRun, this]
    · simp [hasFourDigitRun, ih h]

/-- Stripping an all-whitespace prefix keeps `hasFourDigitRun`. -/
theorem hasFourDigitRun_of_space_append {l r : List Char}
    (h : hasFourDigitRun (l ++ r) = true)
    (hl : ∀ c ∈ l, pyIsSpace c = true) : hasFourDigitRun r = true := by
  induction l with
  | nil => simpa using h
  | cons c t ih =>
    simp only [List.cons_append, hasFourDigitRun, Bool.or_eq_true] at h
    rcases h with h | h
    · have hc : pyIsSpace c = true := hl c (by simp)
      match t ++ r, h with
      | d2 :: d3 :: d4 :: t', h =>
        simp only [fourDigitsAt, Bool.and_eq_true] at h
        have := pyIsSpace_not_digit hc
        simp [this] at h
    · exact ih h (fun c hc => hl c (by simp [hc]))

/-! ## Properties of `dropTrail` and `pyStrip` -/

/-- Membership in `dropTrail` implies membership in the original list. -/
theorem mem_dropTrail {p : Char → Bool} {l : List Char} {c : Char}
    (h : c ∈ dropTrail p l) : c ∈ l := by
  induction l with
  | nil => simpa [dropTrail] using h
  | cons x t ih =>
    rw [dropTrail] at h
    split at h
    · simp at h
    · simp at h
      rcases h with h | h
      · simp [h]
      · simp [ih h]

/-- An empty `dropTrail` means the whole list satisfies `p`. -/
theorem dropTrail_eq_nil {p : Char → Bool} {l : List Char}
    (h : dropTrail p l = []) : ∀ c ∈ l, p c = true := by
  induction l with
  | nil => simp
  | cons x t ih =>
    rw [dropTrail] at h
    split at h
    · rename_i hcond
      intro c hc
      simp at hc
      rcases hc with hc | hc
      · subst hc; exact hcond.2
      · exact ih hcond.1 c hc
    · simp at h

/-- Decomposition: `dropTrail` removes an all-`p` suffix. -/
theorem dropTrail_decomp (p : Char → Bool) (l : List Char) :
    ∃ post, l = dropTrail p l ++ post ∧ ∀ c ∈ post, p c = true := by
  induction l with
  | nil => exact ⟨[], rfl, by simp⟩
  | cons x t ih =>
    rw [dropTrail]
    split
    · rename_i hcond
      refine ⟨x :: t, by simp, ?_⟩
      intro c hc
      simp at hc
      rcases hc with hc | hc
      · subst hc; exact hcond.2
      · exact dropTrail_eq_nil hcond.1 c hc
    · obtain ⟨post, hpost, hall⟩ := ih
      exact ⟨post, by simpa using hpost, hall⟩

/-- The last element of a non-empty `dropTrail` does not satisfy `p`. -/
theorem getLast?_dropTrail {p : Char → Bool} {l : List Char} {c : Char}
    (h : (dropTrail p l).getLast? = some c) : p c = false := by
  induction l with
  | nil => simp [dropTrail] at h
  | cons x t ih =>
    rw [dropTrail] at h
    split at h
    · simp at h
    · rename_i hcond
      cases hdt : dropTrail p t with
      | nil =>
        rw [hdt] at h
        simp at h
        subst h
        rw [hdt] at hcond
        simp at hcond
        simpa using hcond
      | cons y u =>
        rw [hdt] at h
        rw [List.getLast?_cons_cons] at h
        rw [← hdt] at h
        exact ih h

/-- The head of a `dropTrail` is the head of the original list. -/
theorem head?_dropTrail {p : Char → Bool} {l : List Char}
    (h : dropTrail p l ≠ []) : (dropTrail p l).head? = l.head? := by
  cases l with
  | nil => simp [dropTrail] at h
  | cons x t =>
    by_cases hcond : dropTrail p t = [] ∧ p x = true
    · rw [dropTrail, if_pos hcond] at h
      exact absurd rfl h
    · rw [dropTrail, if_neg hcond]
      simp

/-- Membership in `pyStrip` implies membership in the original list. -/
theorem mem_pyStrip {l : List Char} {c : Char} (h : c ∈ pyStrip l) :
    c ∈ l := by
  unfold pyStrip at h
  exact (List.dropWhile_sublist pyIsSpace).mem (mem_dropTrail h)

/-- Stripped lists have no whitespace at either edge. -/
theorem noEdgeSpace_pyStrip (l : List Char) :
    noEdgeSpace (pyStrip l) = true := by
  unfold noEdgeSpace pyStrip
  rw [Bool.and_eq_true]
  constructor
  · cases hdt : dropTrail pyIsSpace (l.dropWhile pyIsSpace) with
    | nil => simp
    | cons y u =>
      have hne : dropTrail pyIsSpace (l.dropWhile pyIsSpace) ≠ [] := by
        simp [hdt]
      have := head?_dropTrail hne
      rw [hdt] at this
      cases hhd : (l.dropWhile pyIsSpace).head? with
      | none => rw [hhd] at this; simp at this
      | some z =>
        rw [hhd] at this
        simp at this
        have hz := List.head?_dropWhile_not pyIsSpace l
        rw [hhd] at hz
        subst this
        simp [hz]
  · cases hdt : (dropTrail pyIsSpace (l.dropWhile pyIsSpace)).getLast? with
    | none => simp
    | some y => simp [getLast?_dropTrail hdt]

/-- Stripping preserves the presence of a four-digit run. -/
theorem hasFourDigitRun_pyStrip {l : List Char}
    (h : hasFourDigitRun l = true) : hasFourDigitRun (pyStrip l) = true := by
  unfold pyStrip
  have hdecomp := List.takeWhile_append_dropWhile (p := pyIsSpace) (l := l)
  have h1 : hasFourDigitRun (l.dropWhile pyIsSpace) = true := by
    refine hasFourDigitRun_of_space_append (l := l.takeWhile pyIsSpace) ?_ ?_
    · rw [hdecomp]; exact h
    · intro c hc; exact List.mem_takeWhile_imp hc
  obtain ⟨post, hpost, hall⟩ := dropTrail_decomp pyIsSpace (l.dropWhile pyIsSpace)
  refine hasFourDigitRun_of_append_space ?_ hall
  rw [← hpost]
  exact h1

/-! ## Claim C1: the reconciler is an exact two-way set difference -/

/-- C1: for every set of in-text citation keys and reference keys, the
reconciler computes `missing` as exactly `citation_keys − reference_keys`
and `unused` as exactly `reference_keys − citation_keys`; keys match only
under exact string equality of the serialized `surname|year` pair, so
`smith|2020` and `smith|2020a` never match. -/
theorem C1_reconciler_exact_set_difference (c r : Finset String) (k : String) :
    (k ∈ missingKeys c r ↔ k ∈ c ∧ k ∉ r) ∧
    (k ∈ unusedKeys c r ↔ k ∈ r ∧ k ∉ c) ∧
    mkCitationKey "smith" "2020" ≠ mkCitationKey "smith" "2020a" ∧
    missingKeys {mkCitationKey "smith" "2020"} {mkCitationKey "smith" "2020a"}
      = {mkCitationKey "smith" "2020"} :=
  ⟨Finset.mem_sdiff, Finset.mem_sdiff, by decide, by decide⟩

/-! ## Claim C2 (corrected): the verdict ignores `unused` -/

/-- C2 counterexample: a document state where the reference list was
detected, `missing` is empty but `unused` is not, and the verdict is still
GOOD — refuting "good iff both `missing` and `unused` are empty". -/
theorem C2_counterexample :
    overallVerdict ["Smith, J., 2020. Soil biology."]
      (missingKeys (citationKeySet [])
        (refKeySet (parse_reference_entries ["Smith, J., 2020. Soil biology."])))
      (unusedKeys (citationKeySet [])
        (refKeySet (parse_reference_entries ["Smith, J., 2020. Soil biology."])))
      = Verdict.good ∧
    unusedKeys (citationKeySet [])
      (refKeySet (parse_reference_entries ["Smith, J., 2020. Soil biology."])) ≠ ∅ := by
  constructor
  · decide
  · decide

/-- C2 (amended): when the reference list was detected (non-empty reference
lines), the overall verdict states consistency is good iff `missing` is
empty; `unused` plays no role in the verdict. -/
theorem C2_amended_verdict_iff_missing_empty (ref_lines : List String)
    (missing unused : Finset String) (h : ref_lines ≠ []) :
    overallVerdict ref_lines missing unused = Verdict.good ↔ missing = ∅ := by
  by_cases hm : missing = ∅
  · simp [overallVerdict, h, hm]
  · simp [overallVerdict, h, hm]

/-- Witness for the amended C2 at a concrete input. -/
theorem C2_amended_witness :
    (["x"] : List String) ≠ [] ∧
    (overallVerdict ["x"] (∅ : Finset String) ∅ = Verdict.good ↔
      (∅ : Finset String) = ∅) :=
  ⟨by decide, C2_amended_verdict_iff_missing_empty ["x"] ∅ ∅ (by decide)⟩

/-! ## Claim C3 (corrected): the index counts dropped lines too -/

/-- C3 counterexample: with a dropped first line, the single retained entry
carries index 1, not the consecutive-from-zero numbering `[0]` the claim
requires. -/
theorem C3_counterexample :
    (parse_reference_entries ["No year line", "Smith, J., 2020. Soil."]).map
      (fun e => e.index) = [1] ∧
    ([1] : List Nat) ≠ List.range 1 := by
  constructor
  · decide
  · decide

/-- Successful `parseRefLine` keeps the enumerated index and the raw
line. -/
theorem parseRefLine_some {i : Nat} {text : String} {e : ReferenceEntry}
    (h : parseRefLine i text = some e) : e.index = i ∧ e.raw = text := by
  unfold parseRefLine at h
  cases hs : reSearch yearSearchRE text.data with
  | none => rw [hs] at h; simp at h
  | some caps =>
    rw [hs] at h
    dsimp only at h
    split at h
    · simp at h
    · simp only [Option.some.injEq] at h
      rw [← h]
      exact ⟨rfl, rfl⟩

/-- Entries of `parseRefAux i` record input positions offset by `i`. -/
theorem parseRefAux_index {lines : List String} :
    ∀ {i : Nat} {e : ReferenceEntry}, e ∈ parseRefAux i lines →
      ∃ j, e.index = i + j ∧ lines[j]? = some e.raw := by
  induction lines with
  | nil => intro i e h; simp [parseRefAux] at h
  | cons text rest ih =>
    intro i e h
    rw [parseRefAux] at h
    cases hp : parseRefLine i text with
    | some e' =>
      rw [hp] at h
      simp at h
      rcases h with h | h
      · obtain ⟨hidx, hraw⟩ := parseRefLine_some hp
        subst h
        exact ⟨0, by omega, by simp [hraw]⟩
      · obtain ⟨j, hj, hr⟩ := ih h
        exact ⟨j + 1, by omega, by simpa using hr⟩
    | none =>
      rw [hp] at h
      obtain ⟨j, hj, hr⟩ := ih h
      exact ⟨j + 1, by omega, by simpa using hr⟩

/-- C3 (amended): the 0-based index of an emitted reference entry is the
line's position in the input `ref_lines` sequence — dropped lines do
consume an index, so the emitted indices can skip values. -/
theorem C3_amended_index_is_input_position (ref_lines : List String)
    (e : ReferenceEntry) (h : e ∈ parse_reference_entries ref_lines) :
    ref_lines[e.index]? = some e.raw := by
  obtain ⟨j, hj, hr⟩ := parseRefAux_index h
  rw [hj]
  simpa using hr

/-- Witness for the amended C3 at a concrete input. -/
theorem C3_amended_witness :
    (⟨1, "Smith, J., 2020. Soil.", "smith", "2020", "smith|2020"⟩ :
      ReferenceEntry) ∈
      parse_reference_entries ["No year line", "Smith, J., 2020. Soil."] ∧
    (["No year line", "Smith, J., 2020. Soil."] : List String)[(1 : Nat)]? =
      some "Smith, J., 2020. Soil." :=
  ⟨by decide,
    C3_amended_index_is_input_position
      ["No year line", "Smith, J., 2020. Soil."]
      ⟨1, "Smith, J., 2020. Soil.", "smith", "2020", "smith|2020"⟩
      (by decide)⟩

/-! ## Claim C9: the reference-list locator -/

/-- After the heading has been seen, the locator keeps exactly the
non-empty stripped paragraphs. -/
theorem extractRefsAux_true (ps : List String) :
    extractRefsAux true ps =
      (ps.map (fun p => String.mk (pyStrip p.data))).filter
        (fun t => t ≠ "") := by
  induction ps with
  | nil => rfl
  | cons p rest ih =>
    by_cases ht : String.mk (pyStrip p.data) = ""
    · simp [extractRefsAux, ht, ih]
    · simp [extractRefsAux, ht, ih]

/-- A heading-free paragraph sequence locates no reference lines. -/
theorem refListSpec_no_heading :
    ∀ (ps : List String), (∀ p ∈ ps, paraIsHeading p = false) →
      refListSpec ps = [] := by
  intro ps
  induction ps with
  | nil => intro; rfl
  | cons p rest ih =>
    intro hall
    have hp := hall p (by simp)
    simp only [refListSpec, hp, Bool.false_eq_true, if_false]
    exact ih (fun q hq => hall q (by simp [hq]))

/-- C9: the locator returns exactly the non-empty (after trimming)
paragraphs following the first heading paragraph, heading excluded and
empty paragraphs skipped; with no heading anywhere it returns the empty
sequence (and never fails). -/
theorem C9_reference_list_locator (ps : List String) :
    extract_reference_paragraphs ps = refListSpec ps ∧
    ((∀ p ∈ ps, paraIsHeading p = false) →
      extract_reference_paragraphs ps = []) := by
  have main : extract_reference_paragraphs ps = refListSpec ps := by
    unfold extract_reference_paragraphs
    induction ps with
    | nil => rfl
    | cons p rest ih =>
      cases hh : paraIsHeading p with
      | true => simp [extractRefsAux, refListSpec, hh, extractRefsAux_true]
      | false =>
        simp only [extractRefsAux, refListSpec, hh, Bool.false_eq_true,
          if_false]
        exact ih
  refine ⟨main, fun hall => ?_⟩
  rw [main]
  exact refListSpec_no_heading ps hall

/-- Witness for C9 at a concrete heading-free input. -/
theorem C9_witness :
    extract_reference_paragraphs ["Intro text", "More text"] = [] :=
  (C9_reference_list_locator ["Intro text", "More text"]).2 (by decide)

/-! ## Claim C10: the output alphabet of the author normalizer -/

/-- Lowercasing a surname-kept character lands in the allowed output
alphabet. -/
theorem pyToLower_keep {c : Char} (h : keepSurnameChar c = true) :
    pyIsLower (pyToLower c) = true ∨ pyToLower c = '-' ∨
    pyToLower c = apos ∨ pyIsSpace (pyToLower c) = true := by
  simp only [keepSurnameChar, Bool.or_eq_true, beq_iff_eq] at h
  rcases h with ((((h | h) | h) | h) | h)
  · left
    simp only [pyIsUpper, decide_eq_true_eq] at h
    unfold pyToLower
    rw [if_pos h]
    have hval : (Char.ofNat (c.toNat + 32)).toNat = c.toNat + 32 := by
      unfold Char.ofNat
      rw [dif_pos (Or.inl (by omega : c.toNat + 32 < 55296))]
      rfl
    simp only [pyIsLower, decide_eq_true_eq, hval]
    omega
  · left
    simp only [pyIsLower, decide_eq_true_eq] at h
    unfold pyToLower
    rw [if_neg (by omega)]
    simp only [pyIsLower, decide_eq_true_eq]
    omega
  · subst h; right; left; decide
  · subst h; right; right; left; decide
  · right; right; right
    have hc : pyToLower c = c := by
      simp only [pyIsSpace, decide_eq_true_eq] at h
      unfold pyToLower
      rw [if_neg (by omega)]
    rw [hc]
    exact h

/-- C10: every character of `normalize_author`'s result is a lowercase
ASCII letter, a hyphen, an apostrophe, or whitespace — never a digit, an
uppercase letter, a period, or other punctuation. -/
theorem C10_normalize_author_charset (s : String) (c : Char)
    (h : c ∈ (normalize_author s).data) :
    pyIsLower c = true ∨ c = '-' ∨ c = apos ∨ pyIsSpace c = true := by
  unfold normalize_author at h
  cases htoks : authorTokens s with
  | nil => rw [htoks] at h; simp at h
  | cons t0 rest =>
    rw [htoks] at h
    dsimp only at h
    have hmain : ∀ t : List Char, c ∈ (surnameClean t).data →
        pyIsLower c = true ∨ c = '-' ∨ c = apos ∨ pyIsSpace c = true := by
      intro t hct
      unfold surnameClean at hct
      simp only [pyLowerList] at hct
      obtain ⟨c', hc', hmap⟩ := List.mem_map.mp hct
      have hk := (List.mem_filter.mp hc').2
      rw [← hmap]
      exact pyToLower_keep hk
    split at h
    · exact hmain _ h
    · exact hmain _ h

/-- Witness for C10 at a concrete input. -/
theorem C10_witness :
    pyIsLower 'l' = true ∨ 'l' = '-' ∨ 'l' = apos ∨ pyIsSpace 'l' = true :=
  C10_normalize_author_charset "Li, X." 'l' (by decide)

/-! ## Claim C8: surname selection in the author normalizer -/

/-- C8: after `et al.` removal and truncation at the first comma, with at
least two whitespace tokens whose first is a single capital optionally
followed by a period, the last token is the surname; otherwise the first
token is; `normalize_author "X. Li" = "li"` and
`normalize_author "Li, X." = "li"`. -/
theorem C8_surname_selection (s : String) :
    (∀ t0 rest, authorTokens s = t0 :: rest →
      ((2 ≤ (t0 :: rest).length ∧ isInitialTok t0 = true) →
        normalize_author s = surnameClean ((t0 :: rest).getLastD [])) ∧
      (¬(2 ≤ (t0 :: rest).length ∧ isInitialTok t0 = true) →
        normalize_author s = surnameClean t0)) ∧
    normalize_author "X. Li" = "li" ∧ normalize_author "Li, X." = "li" := by
  refine ⟨?_, by decide, by decide⟩
  intro t0 rest htoks
  constructor
  · intro hcond
    unfold normalize_author
    rw [htoks]
    dsimp only
    rw [if_pos hcond]
  · intro hcond
    unfold normalize_author
    rw [htoks]
    dsimp only
    rw [if_neg hcond]

/-- Witness for C8 at a concrete input. -/
theorem C8_witness :
    normalize_author "X. Li" =
      surnameClean (([['X', '.'], ['L', 'i']] : List (List Char)).getLastD []) :=
  ((C8_surname_selection "X. Li").1 ['X', '.'] [['L', 'i']] (by decide)).1
    (by decide)

/-! ## Claim C4 (corrected): `et al.` removal requires the period -/

/-- Size of a literal-sequence regex. -/
theorem litSeq_size (cs : List Char) : (litSeq cs).size = 2 * cs.length + 1 := by
  induction cs with
  | nil => rfl
  | cons c t ih => simp [litSeq, RE.size, ih]; omega

/-- A needle that leads a haystack is no longer than it. -/
theorem leadsWith_length {cs s : List Char} (h : leadsWith cs s = true) :
    cs.length ≤ s.length := by
  induction cs generalizing s with
  | nil => simp
  | cons c t ih =>
    cases s with
    | nil => simp [leadsWith] at h
    | cons x u =>
      simp only [leadsWith, Bool.and_eq_true] at h
      have := ih h.2
      simp only [List.length_cons]
      omega

/-- With enough fuel, matching a literal sequence consumes exactly that
leading literal or fails. -/
theorem matchRE_litSeq (cs : List Char) :
    ∀ (fuel : Nat) (s : List Char) (caps : Caps)
      (k : List Char → Caps → Option (List Char × Caps)),
      2 * cs.length + 1 ≤ fuel →
      matchRE fuel (litSeq cs) s caps k =
        (if leadsWith cs s = true then k (s.drop cs.length) caps else none) := by
  induction cs with
  | nil =>
    intro fuel s caps k hf
    match fuel, hf with
    | fuel + 1, _ => simp [litSeq, matchRE, leadsWith]
  | cons c cs ih =>
    intro fuel s caps k hf
    match fuel, hf with
    | f1 + 1, hf =>
      have hf1 : 2 * cs.length + 2 ≤ f1 := by
        simp only [List.length_cons] at hf
        omega
      show matchRE f1 (.lit c) s caps
          (fun s' caps' => matchRE f1 (litSeq cs) s' caps' k) = _
      match f1, hf1 with
      | f2 + 1, hf1 =>
        cases s with
        | nil => simp [matchRE, leadsWith]
        | cons x t =>
          by_cases hx : x = c
          · subst hx
            show (if x = x then matchRE (f2 + 1) (litSeq cs) t caps k
              else none) = _
            rw [if_pos rfl]
            rw [ih (f2 + 1) t caps k (by omega)]
            simp [leadsWith]
          · show (if x = c then matchRE (f2 + 1) (litSeq cs) t caps k
              else none) = _
            rw [if_neg hx]
            have hlw : leadsWith (c :: cs) (x :: t) = false := by
              simp only [leadsWith, Bool.and_eq_false_iff]
              left
              simp [beq_iff_eq]
              exact fun he => absurd he.symm hx
            rw [hlw]
            simp

/-- The `matchTotal` form of `matchRE_litSeq`. -/
theorem matchTotal_litSeq (cs s : List Char) :
    matchTotal (litSeq cs) s =
      (if leadsWith cs s = true then some (cs.length, ([] : Caps))
       else none) := by
  unfold matchTotal
  rw [matchRE_litSeq cs (engineFuel (litSeq cs) s) s []
    (fun s' caps => some (s', caps))
    (by simp [engineFuel, litSeq_size]; omega)]
  by_cases hlw : leadsWith cs s = true
  · rw [if_pos hlw, if_pos hlw]
    have hle := leadsWith_length hlw
    simp only [List.length_drop]
    congr 1
    ext
    · omega
    · rfl
  · rw [if_neg hlw, if_neg hlw]

/-- Specialization of `matchTotal_litSeq` to the `et al\.` pattern. -/
theorem matchTotal_etAl (s : List Char) :
    matchTotal etAlRE s =
      (if leadsWith etAlToken s = true then some (etAlToken.length, ([] : Caps))
       else none) :=
  matchTotal_litSeq etAlToken s

/-- The substitution `re.sub(r"et al\.", "", _)` deletes exactly the
leftmost, non-overlapping occurrences of the literal string `et al.`. -/
theorem reSubAux_etAl :
    ∀ (fuel : Nat) (s : List Char), s.length < fuel →
      reSubAux etAlRE fuel s = removeAll etAlToken s := by
  intro fuel
  induction fuel with
  | zero => intro s h; omega
  | succ fuel ih =>
    intro s h
    rw [reSubAux.eq_def]
    cases s with
    | nil => rw [removeAll]
    | cons c rest =>
      rw [matchTotal_etAl (c :: rest)]
      by_cases hlw : leadsWith etAlToken (c :: rest) = true
      · rw [if_pos hlw]
        dsimp only
        rw [if_neg (by decide : ¬(etAlToken.length = 0))]
        rw [removeAll, dif_pos ⟨by decide, hlw⟩]
        apply ih
        have h6 : etAlToken.length = 6 := by decide
        have := leadsWith_length hlw
        simp only [List.length_drop, List.length_cons] at *
        omega
      · rw [if_neg hlw]
        dsimp only
        rw [removeAll,
          dif_neg (by simp only [hlw]; exact fun hc => absurd hc.2 (by simp))]
        rw [ih rest (by simp only [List.length_cons] at h; omega)]

/-- Top-level form: `reSub` with the `et al\.` pattern is literal
replacement of `et al.` by the empty string. -/
theorem reSub_etAl (s : List Char) :
    reSub etAlRE s = removeAll etAlToken s :=
  reSubAux_etAl (s.length + 1) s (Nat.lt_succ_self _)

/-- C4 counterexample: the trailing period is required, not optional —
`normalize_author "X. Duer et al"` yields `"al"`, not `"duer"`, so the two
spellings do not normalize alike. -/
theorem C4_counterexample :
    normalize_author "X. Duer et al" = "al" ∧
    normalize_author "X. Duer et al." = "duer" ∧
    ("al" : String) ≠ "duer" :=
  ⟨by decide, by decide, by decide⟩

/-- C4 (amended): every occurrence of the literal token `et al.` — with
the trailing period required — is removed before surname selection;
`normalize_author "X. Duer et al." = "duer"` while
`normalize_author "X. Duer et al" = "al"`. -/
theorem C4_amended_et_al_removal :
    (∀ s : List Char, reSub etAlRE s = removeAll etAlToken s) ∧
    normalize_author "X. Duer et al." = "duer" ∧
    normalize_author "X. Duer et al" = "al" :=
  ⟨reSub_etAl, by decide, by decide⟩

/-! ## Claim C5: invariants of the citation candidates -/

/-- Decomposition of a word accepted by the citation pattern: an opening
parenthesis, an interior word, a closing parenthesis. -/
theorem accepts_citation_decomp {w : List Char} (h : Accepts citationRE w) :
    ∃ wi, w = '(' :: (wi ++ [')']) ∧ Accepts citationInnerRE wi := by
  cases h with
  | seq ha hb =>
    cases ha
    cases hb with
    | seq hc hd =>
      cases hd
      exact ⟨_, rfl, hc⟩

/-- Every character class of the citation interior excludes parentheses. -/
theorem clsOnly_citationInner :
    ClsOnly (fun c => c ≠ '(' ∧ c ≠ ')') citationInnerRE := by
  have hnp : ∀ c, notParen c = true → c ≠ '(' ∧ c ≠ ')' := by
    intro c hc
    simpa only [notParen, Bool.and_eq_true, bne_iff_ne] using hc
  have hdig : ∀ c, pyIsDigit c = true → c ≠ '(' ∧ c ≠ ')' := by
    intro c hc
    constructor <;> rintro rfl <;> exact absurd hc (by decide)
  have hlow : ∀ c, pyIsLower c = true → c ≠ '(' ∧ c ≠ ')' := by
    intro c hc
    constructor <;> rintro rfl <;> exact absurd hc (by decide)
  have hsc : ∀ c, (c == ';' || c == ',') = true → c ≠ '(' ∧ c ≠ ')' := by
    intro c hc
    simp only [Bool.or_eq_true, beq_iff_eq] at hc
    rcases hc with rfl | rfl <;> exact ⟨by decide, by decide⟩
  simp only [citationInnerRE, yearRE, ClsOnly]
  exact ⟨hnp, ⟨hdig, hlow⟩, hnp, hsc, hnp, ⟨hdig, hlow⟩, hnp⟩

/-- A leading four-digit block gives a four-digit run. -/
theorem fourDigitsAt_hasRun {l : List Char} (h : fourDigitsAt l = true) :
    hasFourDigitRun l = true := by
  match l with
  | d1 :: t => simp [hasFourDigitRun, h]
  | [] => simp [fourDigitsAt] at h

/-- Interior words of the citation pattern contain a four-digit run. -/
theorem accepts_inner_run {wi : List Char}
    (h : Accepts citationInnerRE wi) : hasFourDigitRun wi = true := by
  cases h with
  | seq h1 h2 =>
    cases h2 with
    | seq hy h3 =>
      apply hasFourDigitRun_append_left
      apply hasFourDigitRun_append_right
      exact fourDigitsAt_hasRun (accepts_year_fourDigitsAt hy)

/-- C5: every string returned by the citation scanner contains a year
token (four consecutive ASCII digits; the optional lowercase letter adds
nothing to existence), contains no parenthesis, and carries no leading or
trailing whitespace. -/
theorem C5_candidate_invariants (text : String) (s : String)
    (h : s ∈ extract_citations text) :
    (∀ c ∈ s.data, c ≠ '(' ∧ c ≠ ')') ∧ hasFourDigitRun s.data = true ∧
    noEdgeSpace s.data = true := by
  unfold extract_citations at h
  simp only [List.map_map, List.mem_map, Function.comp] at h
  obtain ⟨mc, hmc, hs⟩ := h
  have hacc : Accepts citationRE mc.1 := by
    obtain ⟨w, caps⟩ := mc
    exact finditer_sound hmc
  obtain ⟨wi, hwi, hinner⟩ := accepts_citation_decomp hacc
  have hslice : (mc.1.drop 1).dropLast = wi := by
    rw [hwi]
    simp
  have hdata : s.data = pyStrip wi := by
    rw [← hs, hslice]
  refine ⟨?_, ?_, ?_⟩
  · intro c hc
    rw [hdata] at hc
    exact accepts_clsOnly clsOnly_citationInner hinner c (mem_pyStrip hc)
  · rw [hdata]
    exact hasFourDigitRun_pyStrip (accepts_inner_run hinner)
  · rw [hdata]
    exact noEdgeSpace_pyStrip wi

/-- Witness for C5 at a concrete input. -/
theorem C5_witness :
    (∀ c ∈ ("x 1999" : String).data, c ≠ '(' ∧ c ≠ ')') ∧
    hasFourDigitRun ("x 1999" : String).data = true ∧
    noEdgeSpace ("x 1999" : String).data = true :=
  C5_candidate_invariants "(x 1999)" "x 1999" (by decide)

/-! ## Claim C6: the scanner on the documented example -/

/-- C6: the scanner on the example text yields exactly the one candidate;
the year-free second parenthetical is excluded. -/
theorem C6_concrete_scanner :
    extract_citations
        "as shown (Duer et al., 1992; Luo, 2022) and (see discussion)" =
      ["Duer et al., 1992; Luo, 2022"] := by
  decide

/-! ## Claim C7: the key builder's comma blind spot -/

/-- C7: on the documented candidate the key builder produces exactly the
key `allan|1999`; the comma-free segments `Allan 2000a` / `Allan 2000b`
yield no key. -/
theorem C7_keybuilder_blind_spot :
    (build_citation_keys
        ["Allan, 1999, Allan and Jones, 1999, Allan 2000a, Allan 2000b"]).map
      (fun kv => kv.1) = ["allan|1999"] := by
  decide

end SBB
